import Mathlib

/-
Verification of the stochastic local-search (SLS) walker of `src/walk.c`
against its natural-language specification.  Machine doubles are embedded
as exact rationals; machine counters as naturals.  Each definition mirrors
one function of `walk.c`, keeping its name where Lean allows.
-/

namespace Walk

/-- Control point table `cbvals` of `walk.c`: pairs of
(average clause size, cb), with the decimal literals written as exact
rationals. -/
def cbvals : List (ℚ × ℚ) :=
  [(0, 2), (3, 5/2), (4, 57/20), (5, 37/10), (6, 51/10), (7, 37/5)]

/-- Scan loop of `fit_cbval`: starting at index 0, advance while
`i + 2 < num_cbvals` and (`cbvals[i][0] > size` or `cbvals[i+1][0] < size`);
the result is the pair of control points the loop stops at.  The list
argument is the tail of `cbvals` from the current index, so the loop
condition `i + 2 < num_cbvals` is the first pattern (at least three
elements left).  The last two cases are unreachable for `cbvals`. -/
def fitSegment (size : ℚ) : List (ℚ × ℚ) → ((ℚ × ℚ) × (ℚ × ℚ))
  | p1 :: p2 :: p3 :: rest =>
    if p1.1 > size ∨ p2.1 < size then fitSegment size (p2 :: p3 :: rest)
    else (p1, p2)
  | [p1, p2] => (p1, p2)
  | [p] => (p, p)
  | [] => ((0, 0), (0, 0))

/-- `fit_cbval` of `walk.c`: pick the segment with the scan loop, then
interpolate linearly: `res = dy * (size - x1) / dx + y1`. -/
def fit_cbval (size : ℚ) : ℚ :=
  let seg := fitSegment size cbvals
  let x1 := seg.1.1
  let y1 := seg.1.2
  let x2 := seg.2.1
  let y2 := seg.2.2
  (y2 - y1) * (size - x1) / (x2 - x1) + y1

/-- Score table filling loop of `init_score_table`:
`for (epsilon = next = 1; next; next = epsilon * base) walker->table[i++] = epsilon = next;`.
Each written entry is the previous entry times `base`, starting from 1.  In C
the loop stops when `next` underflows to 0 in double precision; the iteration
count is taken here as the parameter of the recursion (exact rationals never
underflow), and the second argument is the next value to be written. -/
def buildTable (base : ℚ) : ℕ → ℚ → List ℚ
  | 0, _ => []
  | n + 1, next => next :: buildTable base n (next * base)

/-- The walker fields written by `init_score_table`: the score table, its
length `exponents`, and `epsilon`, which the loop leaves equal to the last
written table entry. -/
structure ScoreTable where
  exponents : ℕ
  table : List ℚ
  epsilon : ℚ

/-- Break multiplier selection in `init_score_table`:
`const double cb = (GET (walks) & 1) ? fit_cbval (walker->size) : 2.0;`. -/
def init_cb (walks : ℕ) (size : ℚ) : ℚ :=
  if walks % 2 = 1 then fit_cbval size else 2

/-- `init_score_table` of `walk.c`, with the iteration count of the
underflow-terminated loop supplied as `exponents`: the table holds
`exponents` entries starting at 1, each subsequent entry the previous one
times `base = 1 / cb`, and `epsilon` ends up as the last entry written
(its initialization 1 if none is written). -/
def init_score_table (walks : ℕ) (size : ℚ) (exponents : ℕ) : ScoreTable :=
  let cb := init_cb walks size
  let base := 1 / cb
  let table := buildTable base exponents 1
  { exponents := exponents, table := table, epsilon := table.getLastD 1 }

/-- `scale_score` of `walk.c`: `table[breaks]` when `breaks < exponents`,
otherwise `epsilon`. -/
def scale_score (w : ScoreTable) (breaks : ℕ) : ℚ :=
  if breaks < w.exponents then w.table.getD breaks 0 else w.epsilon

/-- `MAX_WALK_REF` of `walk.c`: `(1u << 31) - 1`. -/
def MAX_WALK_REF : ℕ := 2 ^ 31 - 1

/-- `INVALID_REF`, the `UINT_MAX` sentinel for "no irredundant clause". -/
def INVALID_REF : ℕ := 2 ^ 32 - 1

/-- The solver fields read by the entry gates of `kissat_walking` and
`kissat_walk`. -/
structure GateFields where
  last_irredundant : ℕ
  arena_size : ℕ
  binirr_clauses : ℕ

/-- Both gates first replace a `last_irredundant` equal to `INVALID_REF` by
`SIZE_STACK (solver->arena)`; this is the value the `last_irredundant`
local variable holds when tested. -/
def effective_last_irredundant (s : GateFields) : ℕ :=
  if s.last_irredundant = INVALID_REF then s.arena_size else s.last_irredundant

/-- `kissat_walking` of `walk.c`: false when the effective
`last_irredundant` exceeds `MAX_WALK_REF`, false when `BINIRR_CLAUSES`
exceeds `MAX_WALK_REF`, true otherwise. -/
def kissat_walking (s : GateFields) : Bool :=
  if MAX_WALK_REF < effective_last_irredundant s then false
  else if MAX_WALK_REF < s.binirr_clauses then false
  else true

/-- Entry gating of `kissat_walk` of `walk.c`: it re-runs the same two tests
and returns early when either fails; the result is whether `walking_phase`
is reached. -/
def kissat_walk_runs (s : GateFields) : Bool :=
  if MAX_WALK_REF < effective_last_irredundant s then false
  else if MAX_WALK_REF < s.binirr_clauses then false
  else true

/-- Position draw at the top of `pick_literal`:
`const unsigned pos = walker->flipped++ % walker->current;` — the inspected
unsat-stack position uses the pre-increment counter value; returns the
position together with the updated `flipped`. -/
def pick_literal_draw (flipped current : ℕ) : ℕ × ℕ :=
  (flipped % current, flipped + 1)

/-- Flipped-counter accounting of `local_search_step`: the step first
executes `walker->flipped++` directly, then calls `pick_literal`, which
draws the unsat position and increments the counter once more.  Returns the
unsat position inspected by this step's `pick_literal` and the final
`flipped` value. -/
def local_search_step_flipped (flipped current : ℕ) : ℕ × ℕ :=
  let f1 := flipped + 1
  pick_literal_draw f1 current

/-- Value of `walker->flipped` after k completed local search steps,
starting from the 0 set by `init_walker_limit`; `current k` is the unsat
stack size seen by step k+1. -/
def flipped_after (current : ℕ → ℕ) : ℕ → ℕ
  | 0 => 0
  | k + 1 => (local_search_step_flipped (flipped_after current k) (current k)).2

/-- Variable index of a literal: `IDX (lit)` is `lit / 2`. -/
def IDX (lit : ℕ) : ℕ := lit / 2

/-- Sign of a literal: `NEGATED (lit)` is `lit & 1`. -/
def NEGATED (lit : ℕ) : Bool := lit % 2 = 1

/-- Positive literal of a variable: `LIT (idx)` is `2 * idx`. -/
def LIT (idx : ℕ) : ℕ := 2 * idx

/-- The phase value `save_walker_trail` writes for a flipped literal:
`NEGATED (lit) ? -1 : 1`. -/
def litPhase (lit : ℕ) : Int := if NEGATED lit then -1 else 1

/-- `INVALID_BEST` of `walk.c`: `UINT_MAX`. -/
def INVALID_BEST : ℕ := 2 ^ 32 - 1

/-- The walker fields involved in trail/best-assignment tracking: variable
count `VARS` of the host, the `best` marker, the trail of flipped literals,
the unsatisfied-clause counts `minimum`, `initial` and `current`, the
walker's literal values and the host's `phases.saved` (indexed by variable). -/
structure BestTracker where
  vars : ℕ
  best : ℕ
  trail : List ℕ
  minimum : ℕ
  initial : ℕ
  current : ℕ
  values : ℕ → Int
  saved : ℕ → Int

/-- Write loop of `save_walker_trail`: for each literal of the given trail
prefix, in order, execute `saved[IDX (lit)] = NEGATED (lit) ? -1 : 1`. -/
def write_trail (saved : ℕ → Int) : List ℕ → (ℕ → Int)
  | [] => saved
  | lit :: rest =>
      write_trail (fun idx => if idx = IDX lit then litPhase lit else saved idx) rest

/-- `save_walker_trail` of `walk.c`: writes the phases of the first `best`
trail literals into `phases.saved`; with `keep` it then shifts the remaining
literals down to the front and resets `best` to 0, without `keep` it returns
right after the writes, leaving trail and best alone. -/
def save_walker_trail (w : BestTracker) (keep : Bool) : BestTracker :=
  let saved1 := write_trail w.saved (w.trail.take w.best)
  if keep then
    { w with saved := saved1, trail := w.trail.drop w.best, best := 0 }
  else
    { w with saved := saved1 }

/-- `push_flipped` of `walk.c`: on an invalid trail do nothing; if the trail
is below the limit `VARS / 4 + 1`, push the flipped literal; at the limit
with `best != 0`, flush the trail prefix and push; at the limit with
`best == 0`, clear the trail and invalidate `best`. -/
def push_flipped (w : BestTracker) (flipped : ℕ) : BestTracker :=
  if w.best = INVALID_BEST then w
  else
    let limit := w.vars / 4 + 1
    if w.trail.length < limit then { w with trail := w.trail ++ [flipped] }
    else if w.best ≠ 0 then
      let w1 := save_walker_trail w true
      { w1 with trail := w1.trail ++ [flipped] }
    else
      { w with trail := [], best := INVALID_BEST }

/-- `save_all_values` of `walk.c`: for every variable index, copy the walker
value of its positive literal into `phases.saved` when that value is
non-zero, then reset `best` to 0. -/
def save_all_values (w : BestTracker) : BestTracker :=
  { w with
    saved := fun idx =>
      if idx < w.vars ∧ w.values (LIT idx) ≠ 0 then w.values (LIT idx)
      else w.saved idx,
    best := 0 }

/-- `update_best` of `walk.c` (verbose reporting elided): called on an
improvement `current < minimum`; records the new minimum, then either copies
all values (invalid trail) or marks the whole current trail as best. -/
def update_best (w : BestTracker) : BestTracker :=
  let w1 := { w with minimum := w.current }
  if w1.best = INVALID_BEST then save_all_values w1
  else { w1 with best := w1.trail.length }

/-- `save_final_minimum` of `walk.c`: keep phases when the round brought no
improvement; with `best` 0 or invalid the minimum is already saved;
otherwise write the first `best` trail literals into phases without
shifting the trail (`save_walker_trail` with `keep = false`). -/
def save_final_minimum (w : BestTracker) : BestTracker :=
  if w.minimum = w.initial then w
  else if w.best = 0 ∨ w.best = INVALID_BEST then w
  else save_walker_trail w false

/-- Concrete walker state: trail grown to the limit `VARS / 4 + 1 = 2` with
`best = 0`. -/
def trailAtLimit : BestTracker := ⟨4, 0, [0, 2], 1, 1, 1, fun _ => 0, fun _ => 0⟩

/-- Concrete walker state with an invalidated trail. -/
def trailInvalid : BestTracker := ⟨4, INVALID_BEST, [], 1, 1, 1, fun _ => 0, fun _ => 0⟩

/-- Concrete walker state with an invalidated trail at an improvement
(`current < minimum`). -/
def trailImproved : BestTracker := ⟨4, INVALID_BEST, [], 1, 1, 0, fun _ => 1, fun _ => 0⟩

/-- `INVALID_LIT`, the `UINT_MAX` sentinel `picked_lit` starts from. -/
def INVALID_LIT : ℕ := 2 ^ 32 - 1

/-- Negation of a literal: `NOT (lit)` is `lit ^ 1`. -/
def NOTLIT (lit : ℕ) : ℕ := lit ^^^ 1

/-- `break_value` of `walk.c`: walk the large-watch list of the negated
literal and count the watches whose counter has `count == 1` (the clauses
only the literal currently satisfies). -/
def break_value (watches : ℕ → List ℕ) (count : ℕ → ℕ) (lit : ℕ) : ℕ :=
  (watches (NOTLIT lit)).countP (fun ref => count ref = 1)

/-- First pass of `pick_literal`: over the clause literals in order, skip
zero-valued literals; for each non-zero literal remember it in `picked_lit`,
push its score onto the scores stack and add it to `sum`.  The accumulator is
(scores stack, sum, picked_lit). -/
def pick_first_pass (values : ℕ → Int) (score : ℕ → ℚ) :
    List ℕ → List ℚ × ℚ × ℕ → List ℚ × ℚ × ℕ
  | [], acc => acc
  | lit :: rest, (scores, sum, picked) =>
      if values lit = 0 then
        pick_first_pass values score rest (scores, sum, picked)
      else
        pick_first_pass values score rest
          (scores ++ [score lit], sum + score lit, lit)

/-- Second pass of `pick_literal`: walk the same literals in order, skipping
zero-valued ones, reading the stored scores in sync (`*scores++`, modelled
by head and tail; the stack always holds one score per remaining non-zero
literal) and accumulating the running sum; return the literal at which the
running sum first strictly exceeds the threshold, and otherwise the
`picked_lit` left by the first pass (the last non-zero-valued literal). -/
def pick_second_pass (values : ℕ → Int) (threshold : ℚ) :
    List ℕ → List ℚ → ℚ → ℕ → ℕ
  | [], _, _, picked => picked
  | lit :: rest, scores, sum, picked =>
      if values lit = 0 then
        pick_second_pass values threshold rest scores sum picked
      else
        if threshold < sum + scores.headD 0 then lit
        else
          pick_second_pass values threshold rest scores.tail
            (sum + scores.headD 0) picked

/-- `pick_literal` of `walk.c`, applied to the literals of the clause drawn
from the unsat stack: score each non-zero literal by
`scale_score (break_value lit)`, draw `threshold = sum * random`, and rescan
for the first literal whose running score sum strictly exceeds the
threshold. -/
def pick_literal (st : ScoreTable) (watches : ℕ → List ℕ) (count : ℕ → ℕ)
    (values : ℕ → Int) (lits : List ℕ) (r : ℚ) : ℕ :=
  let score := fun lit => scale_score st (break_value watches count lit)
  let fp := pick_first_pass values score lits ([], 0, INVALID_LIT)
  let threshold := fp.2.1 * r
  pick_second_pass values threshold lits fp.1 0 fp.2.2

/-- Modelled from the spec (section 4.7, step 5): the first literal, among
the given (already filtered, non-zero-valued) clause literals in order, at
which the accumulated score sum strictly exceeds the threshold; none when no
literal triggers. -/
def firstExceeding (score : ℕ → ℚ) (threshold : ℚ) : List ℕ → ℚ → Option ℕ
  | [], _ => none
  | lit :: rest, sum =>
      if threshold < sum + score lit then some lit
      else firstExceeding score threshold rest (sum + score lit)

/-- The host solver vectors whose save/restore behaviour `init_walker` and
`release_walker` govern: the three-valued assignment `values` and the
polarity activity array `pol_activity` (doubles, embedded as rationals). -/
structure HostVectors where
  values : ℕ → Int
  pol_activity : ℕ → ℚ

/-- Vector effects of `init_walker` (walk.c lines 397-399): the current
`values` pointer is saved into `walker->saved` and replaced by a freshly
calloc'ed all-zero vector, and `pol_activity` is likewise replaced by a
freshly calloc'ed all-zero vector, which is not saved anywhere.  Returns the
new host vectors together with `walker->saved`. -/
def init_walker_vectors (s : HostVectors) : HostVectors × (ℕ → Int) :=
  (⟨fun _ => 0, fun _ => 0⟩, s.values)

/-- Vector effects of `release_walker` (walk.c lines 450-452): the walker's
values vector is freed and `solver->values` is restored from
`walker->saved`; `pol_activity` is not touched. -/
def release_walker_vectors (s : HostVectors) (saved : ℕ → Int) : HostVectors :=
  { s with values := saved }

/-- The init/round/release bracket of `walking_phase` as it acts on the two
host vectors: `round` stands for the arbitrary mutations the local search
round performs on the walker's own values vector before the restore. -/
def walk_vectors_bracket (round : (ℕ → Int) → (ℕ → Int))
    (s : HostVectors) : HostVectors :=
  let p := init_walker_vectors s
  let mid : HostVectors := { p.1 with values := round p.1.values }
  release_walker_vectors mid p.2

/-- A clause counter of `walk.c`: the number of currently true literals of
the clause and, when that number is 0, the clause's position in the unsat
stack (meaningless otherwise; uninitialised in C, 0 here). -/
structure Counter where
  count : ℕ
  pos : ℕ
deriving DecidableEq

/-- The walker state the unsat-stack operations act on: the number of
connected counters (`walker->clauses`), the counter array (a function
consulted only on refs below `clauses`), the unsat stack of counter refs,
and the walker's literal values.  The `current` field of the C walker always
mirrors `SIZE_STACK (walker->unsat)` (re-established at the end of
`flip_literal`) and is not modelled separately. -/
structure FlipState where
  clauses : ℕ
  counters : ℕ → Counter
  unsat : List ℕ
  values : ℕ → Int

/-- `push_unsat` of `walk.c`: set the counter's `pos` to the current stack
size and append the ref to the unsat stack. -/
def push_unsat (w : FlipState) (ref : ℕ) : FlipState :=
  { w with
    counters := fun r =>
      if r = ref then ⟨(w.counters ref).count, w.unsat.length⟩
      else w.counters r,
    unsat := w.unsat ++ [ref] }

/-- `pop_unsat` of `walk.c`: pop the top ref off the unsat stack; when it is
not the ref being removed, write it into the vacated position `pos` and
update its counter's `pos` accordingly.  (The C function also returns
whether a swap happened, used only for step accounting.) -/
def pop_unsat (w : FlipState) (ref pos : ℕ) : FlipState :=
  let other := w.unsat.getLastD 0
  let popped := w.unsat.dropLast
  if ref ≠ other then
    { w with
      counters := fun r =>
        if r = other then ⟨(w.counters other).count, pos⟩
        else w.counters r,
      unsat := popped.set pos other }
  else
    { w with unsat := popped }

/-- Body of the `make_clauses` loop of `walk.c` for one watched ref:
`if (counter->count++) continue;` followed by
`pop_unsat (..., counter->pos)` — a counter whose count was 0 is popped from
the unsat stack after the increment. -/
def make_step (w : FlipState) (ref : ℕ) : FlipState :=
  let c := w.counters ref
  if c.count = 0 then
    pop_unsat
      { w with counters := fun r => if r = ref then ⟨1, c.pos⟩ else w.counters r }
      ref c.pos
  else
    { w with counters := fun r => if r = ref then ⟨c.count + 1, c.pos⟩ else w.counters r }

/-- `make_clauses` of `walk.c`: fold of `make_step` over the large-watch
list of the flipped literal. -/
def make_clauses (w : FlipState) (watchList : List ℕ) : FlipState :=
  watchList.foldl make_step w

/-- Body of the `break_clauses` loop of `walk.c` for one watched ref:
`if (--counter->count) continue; push_unsat (...)` — the count (positive by
the C assertion) is decremented and the counter is pushed when it reaches
0. -/
def break_step (w : FlipState) (ref : ℕ) : FlipState :=
  let c := w.counters ref
  let w2 :=
    { w with counters := fun r => if r = ref then ⟨c.count - 1, c.pos⟩ else w.counters r }
  if c.count = 1 then push_unsat w2 ref else w2

/-- `break_clauses` of `walk.c`: fold of `break_step` over the large-watch
list of the negated flipped literal. -/
def break_clauses (w : FlipState) (watchList : List ℕ) : FlipState :=
  watchList.foldl break_step w

/-- `flip_literal` of `walk.c`: negate the flipped literal's value (and its
complement's), run the make pass over the watches of the flipped literal,
then the break pass over the watches of its negation. -/
def flip_literal (watches : ℕ → List ℕ) (w : FlipState) (flip : ℕ) : FlipState :=
  let w1 :=
    { w with values := fun l =>
        if l = flip then -(w.values flip)
        else if l = NOTLIT flip then w.values flip
        else w.values l }
  let w2 := make_clauses w1 (watches flip)
  break_clauses w2 (watches (NOTLIT flip))

/-- Common tail of the counter-connection loops of `walk.c`: allocate the
next counter ref, store the clause's count of true literals, and push the
ref onto the unsat stack when that count is 0 (`push_unsat` then sets
`pos`). -/
def connect_counter (w : FlipState) (cnt : ℕ) : FlipState :=
  let ref := w.clauses
  let w2 :=
    { w with
      clauses := ref + 1,
      counters := fun r => if r = ref then ⟨cnt, 0⟩ else w.counters r }
  if cnt = 0 then push_unsat w2 ref else w2

/-- One iteration of `connect_binary_counters` of `walk.c`: a binary clause
whose two literals both have non-zero value is connected with count =
(value first > 0) + (value second > 0); others are skipped. -/
def connect_binary_step (values : ℕ → Int) (w : FlipState) (pair : ℕ × ℕ) :
    FlipState :=
  if values pair.1 = 0 ∨ values pair.2 = 0 then w
  else
    connect_counter w
      ((if values pair.1 > 0 then 1 else 0) + (if values pair.2 > 0 then 1 else 0))

/-- `connect_binary_counters` of `walk.c` (watch-list pushes, which do not
touch counters or the unsat stack, elided). -/
def connect_binary_counters (values : ℕ → Int) (w : FlipState)
    (binaries : List (ℕ × ℕ)) : FlipState :=
  binaries.foldl (connect_binary_step values) w

/-- One iteration of `connect_large_counters` of `walk.c`: a clause with a
literal satisfied by the pre-walk `saved` assignment is marked garbage and
skipped; otherwise it is connected with count = number of literals of
positive walker value. -/
def connect_large_step (saved values : ℕ → Int) (w : FlipState)
    (lits : List ℕ) : FlipState :=
  if ∃ lit ∈ lits, saved lit > 0 then w
  else connect_counter w (lits.countP (fun lit => values lit > 0))

/-- `connect_large_counters` of `walk.c` over the irredundant non-garbage
arena clauses (watch-list pushes elided). -/
def connect_large_counters (saved values : ℕ → Int) (w : FlipState)
    (clausesList : List (List ℕ)) : FlipState :=
  clausesList.foldl (connect_large_step saved values) w

/-- Counter initialization of `init_walker` of `walk.c`: starting from no
counters and an empty unsat stack, connect the binary clauses, then the
large clauses. -/
def init_walker_counters (saved values : ℕ → Int) (binaries : List (ℕ × ℕ))
    (clausesList : List (List ℕ)) : FlipState :=
  connect_large_counters saved values
    (connect_binary_counters values ⟨0, fun _ => ⟨0, 0⟩, [], values⟩ binaries)
    clausesList

/-- First half of Invariant A: every unsat stack entry is a connected
counter ref whose counter stores exactly this stack index in `pos` and has
count 0. -/
def UnsatEntriesOK (w : FlipState) : Prop :=
  ∀ i, i < w.unsat.length →
    w.unsat.getD i 0 < w.clauses ∧
    (w.counters (w.unsat.getD i 0)).pos = i ∧
    (w.counters (w.unsat.getD i 0)).count = 0

/-- Second half of Invariant A: every connected counter ref with count 0 is
on the unsat stack. -/
def ZeroCountsIn (w : FlipState) : Prop :=
  ∀ r, r < w.clauses → (w.counters r).count = 0 → r ∈ w.unsat

/-- Invariant A of the spec: a counter ref appears on the unsat stack iff
its count is 0, and when it does, at exactly the index stored in its `pos`
field (the `pos` part of `UnsatEntriesOK` also forces each ref to appear at
most once). -/
def InvA (w : FlipState) : Prop := UnsatEntriesOK w ∧ ZeroCountsIn w

end Walk

namespace Walk

/-- C9: `fit_cbval` matches the control-point table at and between the
points and continues linearly beyond the last segment without clamping:
`fit_cbval 3 = 2.50`, `fit_cbval 5.5 = 4.40`, `fit_cbval 10 = 14.30`. -/
theorem C9_fit_cbval_values :
    fit_cbval 3 = 5/2 ∧ fit_cbval (11/2) = 22/5 ∧ fit_cbval 10 = 143/10 := by
  refine ⟨?_, ?_, ?_⟩ <;> norm_num [fit_cbval, fitSegment, cbvals]

theorem buildTable_getD (base : ℚ) (n : ℕ) :
    ∀ (i : ℕ) (next : ℚ), i < n → (buildTable base n next).getD i 0 = next * base ^ i := by
  induction n with
  | zero => intro i next h; exact absurd h (Nat.not_lt_zero i)
  | succ n ih =>
    intro i next h
    cases i with
    | zero => simp [buildTable]
    | succ i =>
      have hrec := ih i (next * base) (by omega)
      simp only [buildTable, List.getD_cons_succ, hrec]
      ring

theorem buildTable_getLastD (base : ℚ) (n : ℕ) :
    ∀ (next d : ℚ), (buildTable base (n + 1) next).getLastD d = next * base ^ n := by
  induction n with
  | zero => intro next d; simp [buildTable]
  | succ n ih =>
    intro next d
    rw [show buildTable base (n + 1 + 1) next
          = next :: buildTable base (n + 1) (next * base) from rfl]
    rw [List.getLastD_cons, ih]
    ring

theorem scale_score_init (walks : ℕ) (size : ℚ) (E : ℕ) (hE : 1 ≤ E) (b : ℕ) :
    scale_score (init_score_table walks size E) b
      = (1 / init_cb walks size) ^ min b (E - 1) := by
  unfold scale_score init_score_table
  simp only
  by_cases hb : b < E
  · rw [if_pos hb, buildTable_getD _ E b 1 hb, one_mul]
    congr 1
    omega
  · rw [if_neg hb]
    obtain ⟨E1, rfl⟩ : ∃ E1, E = E1 + 1 := ⟨E - 1, by omega⟩
    rw [buildTable_getLastD, one_mul]
    congr 1
    omega

/-- C3 counterexample: at odd walks counter 1 (with average clause size 3)
the code sets cb = fit_cbval 3 = 5/2, not 2.0 as the claim states. -/
theorem C3_counterexample : ¬ (init_cb 1 3 = 2) := by
  have h : init_cb 1 3 = 5/2 := by
    norm_num [init_cb, fit_cbval, fitSegment, cbvals]
  rw [h]
  norm_num

/-- C3 (amended): init_score_table sets cb = fit_cbval (avg_clause_size) when
the walks counter is ODD and cb = 2.0 when it is EVEN (the claim swaps the
parity), and the score table entries are powers of base = 1/cb. -/
theorem C3_init_score_table_cb (walks : ℕ) (size : ℚ) (E i : ℕ) (hi : i < E) :
    (walks % 2 = 1 → init_cb walks size = fit_cbval size) ∧
    (walks % 2 = 0 → init_cb walks size = 2) ∧
    (init_score_table walks size E).table.getD i 0 = (1 / init_cb walks size) ^ i := by
  refine ⟨fun h => ?_, fun h => ?_, ?_⟩
  · rw [init_cb, if_pos h]
  · rw [init_cb, if_neg (by omega)]
  · show (buildTable (1 / init_cb walks size) E 1).getD i 0 = _
    rw [buildTable_getD _ E i 1 hi, one_mul]

theorem C3_witness :
    ((2 % 2 = 1 → init_cb 2 3 = fit_cbval 3) ∧
     (2 % 2 = 0 → init_cb 2 3 = 2) ∧
     (init_score_table 2 3 3).table.getD 2 0 = (1 / init_cb 2 3) ^ 2) :=
  C3_init_score_table_cb 2 3 3 2 (by decide)

/-- C4 counterexample: with the even-walk table (cb = 2, base = 1/2) of 1075
entries (the count at which the geometric sequence underflows in double
precision), the break counts 1076 and 1075 both score epsilon, so
scale_score 1076 ≥ scale_score 1075 holds although 1076 ≤ 1075 fails. -/
theorem C4_counterexample :
    ¬ ((scale_score (init_score_table 0 0 1075) 1076 ≥
          scale_score (init_score_table 0 0 1075) 1075) ↔ (1076 : ℕ) ≤ 1075) := by
  have e : (init_score_table 0 0 1075).exponents = 1075 := rfl
  have hkey : scale_score (init_score_table 0 0 1075) 1076 =
      scale_score (init_score_table 0 0 1075) 1075 := by
    rw [scale_score, scale_score, e, if_neg (by omega), if_neg (by omega)]
  intro h
  have := h.mp (ge_of_eq hkey)
  omega

/-- C4 (amended): for a table built by init_score_table with at least one
entry and cb > 1, scale_score b1 ≥ scale_score b2 iff b1 ≤ b2 OR
b2 ≥ exponents − 1: from break count exponents − 1 on, every break count
scores epsilon, which equals the last table entry, so the claimed
equivalence only holds below that point; every score is strictly positive. -/
theorem C4_scale_score_monotone (walks : ℕ) (size : ℚ) (E b1 b2 : ℕ)
    (hE : 1 ≤ E) (hcb : 1 < init_cb walks size) :
    ((scale_score (init_score_table walks size E) b1 ≥
        scale_score (init_score_table walks size E) b2) ↔ (b1 ≤ b2 ∨ E - 1 ≤ b2)) ∧
    0 < scale_score (init_score_table walks size E) b1 := by
  have hcb0 : (0 : ℚ) < init_cb walks size := lt_trans zero_lt_one hcb
  have h0 : (0 : ℚ) < 1 / init_cb walks size := by positivity
  have h1 : 1 / init_cb walks size < 1 := (div_lt_one hcb0).mpr hcb
  have anti : StrictAnti fun n : ℕ => (1 / init_cb walks size) ^ n :=
    pow_right_strictAnti₀ h0 h1
  rw [scale_score_init walks size E hE b1, scale_score_init walks size E hE b2]
  refine ⟨?_, pow_pos h0 _⟩
  have hiff : (1 / init_cb walks size) ^ min b2 (E - 1) ≤
      (1 / init_cb walks size) ^ min b1 (E - 1) ↔ min b1 (E - 1) ≤ min b2 (E - 1) :=
    anti.le_iff_le
  rw [ge_iff_le, hiff]
  omega

theorem C4_witness :
    ((scale_score (init_score_table 0 3 2) 0 ≥ scale_score (init_score_table 0 3 2) 1
        ↔ (0 ≤ 1 ∨ 2 - 1 ≤ 1)) ∧ 0 < scale_score (init_score_table 0 3 2) 0) :=
  C4_scale_score_monotone 0 3 2 0 1 (by decide) (by decide)

/-- C6: kissat_walking is true iff the effective last_irredundant is at most
MAX_WALK_REF and BINIRR_CLAUSES is at most MAX_WALK_REF; when it is false,
kissat_walk returns before reaching walking_phase. -/
theorem C6_walking_gate (s : GateFields) :
    (kissat_walking s = true ↔
      (effective_last_irredundant s ≤ MAX_WALK_REF ∧
       s.binirr_clauses ≤ MAX_WALK_REF)) ∧
    (kissat_walking s = false → kissat_walk_runs s = false) := by
  unfold kissat_walking kissat_walk_runs
  split_ifs with h1 h2 <;> simp <;> omega

theorem C6_witness :
    ((kissat_walking ⟨0, 0, 2 ^ 31⟩ = true ↔
       (effective_last_irredundant ⟨0, 0, 2 ^ 31⟩ ≤ MAX_WALK_REF ∧
        (GateFields.mk 0 0 (2 ^ 31)).binirr_clauses ≤ MAX_WALK_REF)) ∧
     (kissat_walking ⟨0, 0, 2 ^ 31⟩ = false →
        kissat_walk_runs ⟨0, 0, 2 ^ 31⟩ = false)) :=
  C6_walking_gate ⟨0, 0, 2 ^ 31⟩

/-- C10: each local_search_step increments walker->flipped by exactly 2 (once
directly, once inside pick_literal), so after k completed steps flipped = 2k,
and the unsat position inspected by step k's pick_literal is
(2k − 1) mod (unsat size at that step). -/
theorem C10_flipped_accounting (current : ℕ → ℕ) (k : ℕ) (hk : 1 ≤ k) :
    flipped_after current k = 2 * k ∧
    (local_search_step_flipped (flipped_after current (k - 1)) (current (k - 1))).1
      = (2 * k - 1) % current (k - 1) := by
  have hall : ∀ m, flipped_after current m = 2 * m := by
    intro m
    induction m with
    | zero => rfl
    | succ m ih =>
      simp only [flipped_after, local_search_step_flipped, pick_literal_draw, ih]
      omega
  refine ⟨hall k, ?_⟩
  rw [hall (k - 1)]
  simp only [local_search_step_flipped, pick_literal_draw]
  congr 1
  omega

theorem C10_witness :
    (flipped_after (fun _ => 5) 1 = 2 * 1 ∧
     (local_search_step_flipped (flipped_after (fun _ => 5) (1 - 1))
        ((fun _ => 5) (1 - 1))).1 = (2 * 1 - 1) % (fun _ => 5) (1 - 1)) :=
  C10_flipped_accounting (fun _ => 5) 1 (by decide)

theorem list_getLast_snoc {α : Type} (xs : List α) (a : α) :
    (xs ++ [a]).getLast? = some a := by
  rw [List.getLast?_append_cons]
  rfl

theorem write_trail_append (saved : ℕ → Int) (l1 l2 : List ℕ) :
    write_trail saved (l1 ++ l2) = write_trail (write_trail saved l1) l2 := by
  induction l1 generalizing saved with
  | nil => rfl
  | cons a t ih =>
    simp only [List.cons_append, write_trail]
    exact ih _

theorem write_trail_eq (lits : List ℕ) (saved : ℕ → Int) (idx : ℕ) :
    write_trail saved lits idx
      = ((lits.filter fun l => IDX l = idx).getLast?.map litPhase).getD (saved idx) := by
  induction lits using List.reverseRecOn with
  | nil => rfl
  | append_singleton l a ih =>
    rw [write_trail_append]
    have hL : write_trail (write_trail saved l) [a] idx
        = if idx = IDX a then litPhase a else write_trail saved l idx := rfl
    rw [hL, List.filter_append]
    by_cases hP : IDX a = idx
    · have hf : List.filter (fun l => decide (IDX l = idx)) [a] = [a] := by
        simp [hP]
      rw [if_pos hP.symm, hf, list_getLast_snoc]
      rfl
    · have hf : List.filter (fun l => decide (IDX l = idx)) [a] = [] := by
        simp [hP]
      rw [if_neg (fun h => hP h.symm), hf, List.append_nil, ih]

/-- C7: save_final_minimum leaves phases untouched when minimum = initial;
when best = 0 or best = INVALID_BEST it writes nothing further (phases
already hold the best assignment); otherwise it writes, for each literal of
the first best trail entries in order, +1 or −1 into saved[var] according to
the literal's polarity (the last write of a variable winning), and does not
shift the trail. -/
theorem C7_save_final_minimum (w : BestTracker) :
    save_final_minimum w =
      if w.minimum = w.initial then w
      else if w.best = 0 ∨ w.best = INVALID_BEST then w
      else
        { w with saved := fun idx =>
            (((w.trail.take w.best).filter fun l => IDX l = idx).getLast?.map
              litPhase).getD (w.saved idx) } := by
  unfold save_final_minimum
  by_cases h1 : w.minimum = w.initial
  · rw [if_pos h1, if_pos h1]
  · rw [if_neg h1, if_neg h1]
    by_cases h2 : w.best = 0 ∨ w.best = INVALID_BEST
    · rw [if_pos h2, if_pos h2]
    · rw [if_neg h2, if_neg h2]
      show { w with saved := write_trail w.saved (w.trail.take w.best) } = _
      have hs : write_trail w.saved (w.trail.take w.best) = fun idx =>
          (((w.trail.take w.best).filter fun l => IDX l = idx).getLast?.map
            litPhase).getD (w.saved idx) :=
        funext fun idx => write_trail_eq _ _ idx
      rw [hs]

/-- C8: when the trail has grown to the limit VARS/4 + 1 with best = 0, the
next flip clears the trail, sets best = INVALID_BEST and does not push the
flipped literal; while best is invalid a flip leaves the empty trail (and the
whole tracked state) unchanged; and the next improvement (current < minimum)
records minimum = current, copies every non-zero walker value into
phases.saved as a signed phase and resets best = 0. -/
theorem C8_trail_invalidation :
    (∀ (w : BestTracker) (lit : ℕ), w.best = 0 →
        w.trail.length = w.vars / 4 + 1 →
        push_flipped w lit = { w with trail := [], best := INVALID_BEST }) ∧
    (∀ (w : BestTracker) (lit : ℕ), w.best = INVALID_BEST → w.trail = [] →
        push_flipped w lit = w) ∧
    (∀ w : BestTracker, w.best = INVALID_BEST → w.current < w.minimum →
        (update_best w).minimum = w.current ∧ (update_best w).best = 0 ∧
        ∀ idx, idx < w.vars → w.values (LIT idx) ≠ 0 →
          (update_best w).saved idx = w.values (LIT idx)) := by
  refine ⟨?_, ?_, ?_⟩
  · intro w lit h0 hlen
    unfold push_flipped
    rw [if_neg (by rw [h0]; norm_num [INVALID_BEST]), if_neg (by omega),
      if_neg (by rw [h0]; simp)]
  · intro w lit hb ht
    unfold push_flipped
    rw [if_pos hb]
  · intro w hb hcur
    unfold update_best
    rw [if_pos hb]
    refine ⟨rfl, rfl, fun idx hidx hnz => ?_⟩
    show (if idx < w.vars ∧ w.values (LIT idx) ≠ 0 then w.values (LIT idx)
          else w.saved idx) = w.values (LIT idx)
    rw [if_pos ⟨hidx, hnz⟩]

theorem C7_witness :
    save_final_minimum trailAtLimit =
      if trailAtLimit.minimum = trailAtLimit.initial then trailAtLimit
      else if trailAtLimit.best = 0 ∨ trailAtLimit.best = INVALID_BEST then
        trailAtLimit
      else
        { trailAtLimit with saved := fun idx =>
            (((trailAtLimit.trail.take trailAtLimit.best).filter
              (fun l => IDX l = idx)).getLast?.map
              litPhase).getD (trailAtLimit.saved idx) } :=
  C7_save_final_minimum trailAtLimit

theorem list_getLastD_mem {α : Type} (l : List α) (d : α) (h : l ≠ []) :
    l.getLastD d ∈ l := by
  induction l generalizing d with
  | nil => exact absurd rfl h
  | cons a t ih =>
    rw [List.getLastD_cons]
    cases t with
    | nil => simp [List.getLastD]
    | cons b t2 => exact List.mem_cons_of_mem a (ih a (by simp))

theorem pick_first_pass_eq (values : ℕ → Int) (score : ℕ → ℚ) (lits : List ℕ) :
    ∀ (scores : List ℚ) (sum : ℚ) (picked : ℕ),
    pick_first_pass values score lits (scores, sum, picked)
      = (scores ++ (lits.filter (fun l => values l ≠ 0)).map score,
         sum + ((lits.filter (fun l => values l ≠ 0)).map score).sum,
         (lits.filter (fun l => values l ≠ 0)).getLastD picked) := by
  induction lits with
  | nil =>
    intro scores sum picked
    simp [pick_first_pass]
  | cons lit rest ih =>
    intro scores sum picked
    by_cases h : values lit = 0
    · have hf : (lit :: rest).filter (fun l => values l ≠ 0)
          = rest.filter (fun l => values l ≠ 0) := by
        simp [List.filter_cons, h]
      rw [hf, show pick_first_pass values score (lit :: rest)
            (scores, sum, picked)
          = pick_first_pass values score rest (scores, sum, picked) from by
            rw [pick_first_pass, if_pos h]]
      exact ih scores sum picked
    · have hf : (lit :: rest).filter (fun l => values l ≠ 0)
          = lit :: rest.filter (fun l => values l ≠ 0) := by
        simp [List.filter_cons, h]
      rw [hf, show pick_first_pass values score (lit :: rest)
            (scores, sum, picked)
          = pick_first_pass values score rest
              (scores ++ [score lit], sum + score lit, lit) from by
            rw [pick_first_pass, if_neg h]]
      rw [ih (scores ++ [score lit]) (sum + score lit) lit]
      refine congrArg₂ (Prod.mk) ?_ (congrArg₂ (Prod.mk) ?_ ?_)
      · rw [List.map_cons, List.append_assoc]
        rfl
      · rw [List.map_cons, List.sum_cons, add_assoc]
      · rw [List.getLastD_cons]

theorem pick_second_pass_eq (values : ℕ → Int) (score : ℕ → ℚ) (th : ℚ)
    (lits : List ℕ) :
    ∀ (sum : ℚ) (picked : ℕ),
    pick_second_pass values th lits
        ((lits.filter (fun l => values l ≠ 0)).map score) sum picked
      = (firstExceeding score th (lits.filter (fun l => values l ≠ 0))
          sum).getD picked := by
  induction lits with
  | nil =>
    intro sum picked
    rfl
  | cons lit rest ih =>
    intro sum picked
    by_cases h : values lit = 0
    · have hf : (lit :: rest).filter (fun l => values l ≠ 0)
          = rest.filter (fun l => values l ≠ 0) := by
        simp [List.filter_cons, h]
      rw [hf, show pick_second_pass values th (lit :: rest)
            ((rest.filter (fun l => values l ≠ 0)).map score) sum picked
          = pick_second_pass values th rest
              ((rest.filter (fun l => values l ≠ 0)).map score) sum picked from by
            rw [pick_second_pass, if_pos h]]
      exact ih sum picked
    · have hf : (lit :: rest).filter (fun l => values l ≠ 0)
          = lit :: rest.filter (fun l => values l ≠ 0) := by
        simp [List.filter_cons, h]
      rw [hf, List.map_cons]
      rw [show pick_second_pass values th (lit :: rest)
            (score lit :: (rest.filter (fun l => values l ≠ 0)).map score)
            sum picked
          = if th < sum + score lit then lit
            else pick_second_pass values th rest
              ((rest.filter (fun l => values l ≠ 0)).map score)
              (sum + score lit) picked from by
            rw [pick_second_pass, if_neg h]
            rfl]
      rw [show firstExceeding score th
            (lit :: rest.filter (fun l => values l ≠ 0)) sum
          = if th < sum + score lit then some lit
            else firstExceeding score th (rest.filter (fun l => values l ≠ 0))
              (sum + score lit) from rfl]
      by_cases hc : th < sum + score lit
      · rw [if_pos hc, if_pos hc]
        rfl
      · rw [if_neg hc, if_neg hc]
        exact ih (sum + score lit) picked

theorem firstExceeding_mem (score : ℕ → ℚ) (th : ℚ) (l : List ℕ) :
    ∀ (sum : ℚ) (x : ℕ), firstExceeding score th l sum = some x → x ∈ l := by
  induction l with
  | nil =>
    intro sum x h
    exact absurd h (by rw [firstExceeding]; exact Option.noConfusion)
  | cons a t ih =>
    intro sum x h
    rw [firstExceeding] at h
    by_cases hc : th < sum + score a
    · rw [if_pos hc] at h
      cases h
      exact List.mem_cons_self a t
    · rw [if_neg hc] at h
      exact List.mem_cons_of_mem a (ih (sum + score a) x h)

/-- C5: pick_literal sums the scores of the clause's non-zero-valued
literals, draws threshold = sum * r, and returns the first literal in clause
order at which the running score sum strictly exceeds the threshold; when no
literal triggers (possible only through rounding, modelled by an arbitrary
r), it returns the last non-zero-valued literal; in every case the result is
a clause literal with value < 0 (the clause being unsatisfied, all its
non-zero literals are false). -/
theorem C5_pick_literal (st : ScoreTable) (watches : ℕ → List ℕ)
    (count : ℕ → ℕ) (values : ℕ → Int) (lits : List ℕ) (r : ℚ)
    (hne : lits.filter (fun l => values l ≠ 0) ≠ [])
    (hneg : ∀ lit ∈ lits, values lit ≠ 0 → values lit < 0) :
    pick_literal st watches count values lits r
      = (firstExceeding (fun lit => scale_score st (break_value watches count lit))
           (((lits.filter (fun l => values l ≠ 0)).map
               (fun lit => scale_score st (break_value watches count lit))).sum * r)
           (lits.filter (fun l => values l ≠ 0)) 0).getD
          ((lits.filter (fun l => values l ≠ 0)).getLastD INVALID_LIT) ∧
    pick_literal st watches count values lits r ∈ lits ∧
    values (pick_literal st watches count values lits r) < 0 := by
  set score := fun lit => scale_score st (break_value watches count lit) with hscore
  set nz := lits.filter (fun l => values l ≠ 0) with hnz
  have hfp : pick_first_pass values score lits ([], 0, INVALID_LIT)
      = (nz.map score, (nz.map score).sum, nz.getLastD INVALID_LIT) := by
    rw [pick_first_pass_eq values score lits [] 0 INVALID_LIT]
    rw [List.nil_append, zero_add]
  have hmain : pick_literal st watches count values lits r
      = (firstExceeding score ((nz.map score).sum * r) nz 0).getD
          (nz.getLastD INVALID_LIT) := by
    show pick_second_pass values
        ((pick_first_pass values score lits ([], 0, INVALID_LIT)).2.1 * r) lits
        (pick_first_pass values score lits ([], 0, INVALID_LIT)).1 0
        (pick_first_pass values score lits ([], 0, INVALID_LIT)).2.2 = _
    rw [hfp]
    exact pick_second_pass_eq values score ((nz.map score).sum * r) lits 0
      (nz.getLastD INVALID_LIT)
  have hmem : pick_literal st watches count values lits r ∈ nz := by
    rw [hmain]
    cases hfe : firstExceeding score ((nz.map score).sum * r) nz 0 with
    | none =>
      rw [Option.getD_none]
      exact list_getLastD_mem nz INVALID_LIT hne
    | some x =>
      rw [Option.getD_some]
      exact firstExceeding_mem score ((nz.map score).sum * r) nz 0 x hfe
  have hmem2 := List.mem_filter.mp hmem
  have hval : values (pick_literal st watches count values lits r) ≠ 0 := by
    have := hmem2.2
    simpa using this
  exact ⟨hmain, hmem2.1, hneg _ hmem2.1 hval⟩

theorem C5_witness :
    (pick_literal (init_score_table 0 0 1) (fun _ => []) (fun _ => 0)
        (fun _ => -1) [0] 0
      = (firstExceeding
           (fun lit => scale_score (init_score_table 0 0 1)
             (break_value (fun _ => []) (fun _ => 0) lit))
           ((([0].filter (fun l => (fun _ => (-1 : Int)) l ≠ 0)).map
               (fun lit => scale_score (init_score_table 0 0 1)
                 (break_value (fun _ => []) (fun _ => 0) lit))).sum * 0)
           ([0].filter (fun l => (fun _ => (-1 : Int)) l ≠ 0)) 0).getD
          (([0].filter (fun l => (fun _ => (-1 : Int)) l ≠ 0)).getLastD
            INVALID_LIT) ∧
     pick_literal (init_score_table 0 0 1) (fun _ => []) (fun _ => 0)
        (fun _ => -1) [0] 0 ∈ [0] ∧
     (fun _ => (-1 : Int)) (pick_literal (init_score_table 0 0 1)
        (fun _ => []) (fun _ => 0) (fun _ => -1) [0] 0) < 0) :=
  C5_pick_literal (init_score_table 0 0 1) (fun _ => []) (fun _ => 0)
    (fun _ => -1) [0] 0 (by decide)
    (by
      intro lit hl hnz
      show (-1 : Int) < 0
      decide)

/-- C2 counterexample: the claimed confinement of side effects fails for
`solver->pol_activity`: `init_walker` replaces it by a fresh zeroed vector
(walk.c line 399) and `release_walker` never restores it, so a host whose
`pol_activity[0]` was 1 before the walk finds it 0 afterwards. -/
theorem C2_counterexample :
    ¬ ((walk_vectors_bracket id ⟨fun _ => 0, fun _ => 1⟩).pol_activity 0
        = (HostVectors.mk (fun _ => 0) (fun _ => 1)).pol_activity 0) := by
  intro h
  have h01 : (0 : ℚ) = 1 := h
  norm_num at h01

/-- C2 (amended): across the init_walker/release_walker bracket, the host's
values vector is restored exactly (whatever the round did to the walker's
own fresh vector), but solver->pol_activity is left replaced by the fresh
zeroed vector, an additional side effect the claim does not list. -/
theorem C2_values_restored (round : (ℕ → Int) → (ℕ → Int)) (s : HostVectors) :
    (walk_vectors_bracket round s).values = s.values ∧
    (walk_vectors_bracket round s).pol_activity = fun _ => 0 :=
  ⟨rfl, rfl⟩

theorem list_getD_eq_getElem {l : List ℕ} {i : ℕ} (h : i < l.length) :
    l.getD i 0 = l[i] := by
  rw [List.getD_eq_getElem?_getD, List.getElem?_eq_getElem h, Option.getD_some]

theorem mem_getD_iff {l : List ℕ} {r : ℕ} :
    r ∈ l ↔ ∃ i, i < l.length ∧ l.getD i 0 = r := by
  rw [List.mem_iff_getElem]
  constructor
  · rintro ⟨i, hi, hr⟩
    exact ⟨i, hi, by rw [list_getD_eq_getElem hi, hr]⟩
  · rintro ⟨i, hi, hr⟩
    exact ⟨i, hi, by rw [← list_getD_eq_getElem hi, hr]⟩

theorem mem_pos_of_entriesOK {w : FlipState} (hA : UnsatEntriesOK w) {r : ℕ}
    (hr : r ∈ w.unsat) :
    (w.counters r).pos < w.unsat.length ∧
    w.unsat.getD ((w.counters r).pos) 0 = r ∧
    (w.counters r).count = 0 := by
  obtain ⟨i, hi, hgi⟩ := mem_getD_iff.mp hr
  have hall := hA i hi
  rw [hgi] at hall
  obtain ⟨-, hpos, hcnt⟩ := hall
  rw [hpos]
  exact ⟨hi, hgi, hcnt⟩

theorem push_unsat_invA {w : FlipState} {ref : ℕ}
    (href : ref < w.clauses)
    (hnm : ref ∉ w.unsat)
    (hcnt : (w.counters ref).count = 0)
    (h1 : UnsatEntriesOK w)
    (h2 : ∀ r, r < w.clauses → r ≠ ref → (w.counters r).count = 0 →
      r ∈ w.unsat) :
    InvA (push_unsat w ref) := by
  have hcl : (push_unsat w ref).clauses = w.clauses := rfl
  have hcs : ∀ r, (push_unsat w ref).counters r
      = if r = ref then ⟨(w.counters ref).count, w.unsat.length⟩
        else w.counters r := fun r => rfl
  have hus : (push_unsat w ref).unsat = w.unsat ++ [ref] := rfl
  constructor
  · intro i hi
    rw [hus] at hi ⊢
    rw [List.length_append, List.length_singleton] at hi
    by_cases hilt : i < w.unsat.length
    · have hgi : (w.unsat ++ [ref]).getD i 0 = w.unsat.getD i 0 := by
        rw [list_getD_eq_getElem (by rw [List.length_append, List.length_singleton]; omega),
          list_getD_eq_getElem hilt]
        exact List.getElem_append_left hilt
      rw [hgi]
      have hmem : w.unsat.getD i 0 ∈ w.unsat :=
        mem_getD_iff.mpr ⟨i, hilt, rfl⟩
      have hne : w.unsat.getD i 0 ≠ ref := fun he => hnm (he ▸ hmem)
      rw [hcl, hcs, if_neg hne]
      exact h1 i hilt
    · have hieq : i = w.unsat.length := by omega
      have hgi : (w.unsat ++ [ref]).getD i 0 = ref := by
        rw [list_getD_eq_getElem (by rw [List.length_append, List.length_singleton]; omega)]
        exact List.getElem_concat_length w.unsat ref i hieq _
      rw [hgi, hcl, hcs, if_pos rfl]
      exact ⟨href, hieq.symm, hcnt⟩
  · intro r hr hc
    rw [hus]
    rw [hcl] at hr
    rw [hcs] at hc
    by_cases hre : r = ref
    · subst hre
      exact List.mem_append_right _ (List.mem_singleton_self r)
    · rw [if_neg hre] at hc
      exact List.mem_append_left _ (h2 r hr hre hc)

theorem list_getLastD_eq_getD {l : List ℕ} (h : 0 < l.length) :
    l.getLastD 0 = l.getD (l.length - 1) 0 := by
  rw [List.getLastD_eq_getLast?, List.getLast?_eq_getElem?,
    List.getD_eq_getElem?_getD]

theorem list_getD_dropLast {l : List ℕ} {i : ℕ} (h : i < l.length - 1) :
    l.dropLast.getD i 0 = l.getD i 0 := by
  rw [list_getD_eq_getElem (by rw [List.length_dropLast]; omega),
    list_getD_eq_getElem (by omega)]
  exact List.getElem_dropLast l i _

theorem list_getD_set_self {l : List ℕ} {i a : ℕ} (h : i < l.length) :
    (l.set i a).getD i 0 = a := by
  rw [list_getD_eq_getElem (by rw [List.length_set]; omega)]
  exact List.getElem_set_self _

theorem list_getD_set_ne {l : List ℕ} {i j a : ℕ} (hij : i ≠ j)
    (hj : j < l.length) :
    (l.set i a).getD j 0 = l.getD j 0 := by
  rw [list_getD_eq_getElem (by rw [List.length_set]; omega),
    list_getD_eq_getElem hj]
  exact List.getElem_set_ne hij _

theorem pop_unsat_invA {w : FlipState} {ref p : ℕ}
    (hp : p < w.unsat.length)
    (hgetp : w.unsat.getD p 0 = ref)
    (h1a : ∀ i, i < w.unsat.length → w.unsat.getD i 0 < w.clauses)
    (h1b : ∀ i, i < w.unsat.length →
      (w.counters (w.unsat.getD i 0)).pos = i)
    (h1c : ∀ i, i < w.unsat.length → w.unsat.getD i 0 ≠ ref →
      (w.counters (w.unsat.getD i 0)).count = 0)
    (h2 : ∀ r, r < w.clauses → r ≠ ref → (w.counters r).count = 0 →
      r ∈ w.unsat)
    (hrc : (w.counters ref).count ≠ 0) :
    InvA (pop_unsat w ref p) := by
  have hn1 : 0 < w.unsat.length := by omega
  have hq : w.unsat.length - 1 < w.unsat.length := by omega
  have hother : w.unsat.getLastD 0 = w.unsat.getD (w.unsat.length - 1) 0 :=
    list_getLastD_eq_getD hn1
  have hrefpos : (w.counters ref).pos = p := by
    have hb := h1b p hp
    rwa [hgetp] at hb
  by_cases hne : ref ≠ w.unsat.getLastD 0
  · -- the popped top is a different ref: it is swapped into position p
    have hOne : w.unsat.getD (w.unsat.length - 1) 0 ≠ ref := by
      rw [← hother]
      exact fun h => hne h.symm
    have hpq : p ≠ w.unsat.length - 1 := by
      intro h
      exact hne (by rw [hother, ← h, hgetp])
    have hplt : p < w.unsat.length - 1 := by omega
    have hstate : pop_unsat w ref p =
        { w with
          counters := fun r =>
            if r = w.unsat.getLastD 0 then
              ⟨(w.counters (w.unsat.getLastD 0)).count, p⟩
            else w.counters r,
          unsat := w.unsat.dropLast.set p (w.unsat.getLastD 0) } := by
      simp only [pop_unsat]
      rw [if_pos hne]
    rw [hstate]
    have hlen : (w.unsat.dropLast.set p (w.unsat.getLastD 0)).length
        = w.unsat.length - 1 := by
      rw [List.length_set, List.length_dropLast]
    constructor
    · intro i hi
      dsimp only at hi ⊢
      rw [hlen] at hi
      by_cases hip : i = p
      · subst hip
        have hgi : (w.unsat.dropLast.set i (w.unsat.getLastD 0)).getD i 0
            = w.unsat.getLastD 0 :=
          list_getD_set_self (by rw [List.length_dropLast]; omega)
        rw [hgi, if_pos rfl, hother]
        exact ⟨h1a _ hq, rfl, h1c _ hq hOne⟩
      · have hgi : (w.unsat.dropLast.set p (w.unsat.getLastD 0)).getD i 0
            = w.unsat.getD i 0 := by
          rw [list_getD_set_ne (fun h => hip h.symm)
            (by rw [List.length_dropLast]; omega)]
          exact list_getD_dropLast hi
        rw [hgi]
        have hgne_other : w.unsat.getD i 0 ≠ w.unsat.getLastD 0 := by
          intro h
          have hbi := h1b i (by omega)
          rw [h, hother] at hbi
          rw [h1b _ hq] at hbi
          omega
        have hgne_ref : w.unsat.getD i 0 ≠ ref := by
          intro h
          have hbi := h1b i (by omega)
          rw [h, hrefpos] at hbi
          exact hip hbi.symm
        rw [if_neg hgne_other]
        exact ⟨h1a i (by omega), h1b i (by omega), h1c i (by omega) hgne_ref⟩
    · intro r hr hc
      dsimp only at hr hc ⊢
      by_cases hro : r = w.unsat.getLastD 0
      · subst hro
        refine mem_getD_iff.mpr ⟨p, ?_, ?_⟩
        · rw [hlen]; omega
        · exact list_getD_set_self (by rw [List.length_dropLast]; omega)
      · rw [if_neg hro] at hc
        have hrne : r ≠ ref := fun h => hrc (h ▸ hc)
        obtain ⟨i, hi, hgi⟩ := mem_getD_iff.mp (h2 r hr hrne hc)
        have hiq : i ≠ w.unsat.length - 1 := by
          intro h
          exact hro (by rw [← hgi, h, hother])
        have hip : i ≠ p := by
          intro h
          exact hrne (by rw [← hgi, h, hgetp])
        refine mem_getD_iff.mpr ⟨i, ?_, ?_⟩
        · rw [hlen]; omega
        · rw [list_getD_set_ne (fun h => hip h.symm)
            (by rw [List.length_dropLast]; omega)]
          rw [list_getD_dropLast (by omega)]
          exact hgi
  · -- the popped top is the removed ref itself
    push_neg at hne
    have hpq : p = w.unsat.length - 1 := by
      have hb := h1b (w.unsat.length - 1) hq
      rw [← hother, ← hne, hrefpos] at hb
      exact hb
    have hstate : pop_unsat w ref p = { w with unsat := w.unsat.dropLast } := by
      simp only [pop_unsat]
      rw [if_neg (by simpa using hne)]
    rw [hstate]
    constructor
    · intro i hi
      dsimp only at hi ⊢
      rw [List.length_dropLast] at hi
      have hgi : w.unsat.dropLast.getD i 0 = w.unsat.getD i 0 :=
        list_getD_dropLast hi
      rw [hgi]
      have hgne_ref : w.unsat.getD i 0 ≠ ref := by
        intro h
        have hbi := h1b i (by omega)
        rw [h, hrefpos] at hbi
        omega
      exact ⟨h1a i (by omega), h1b i (by omega), h1c i (by omega) hgne_ref⟩
    · intro r hr hc
      dsimp only at hr hc ⊢
      have hrne : r ≠ ref := fun h => hrc (h ▸ hc)
      obtain ⟨i, hi, hgi⟩ := mem_getD_iff.mp (h2 r hr hrne hc)
      have hip : i ≠ p := by
        intro h
        exact hrne (by rw [← hgi, h, hgetp])
      refine mem_getD_iff.mpr ⟨i, ?_, ?_⟩
      · rw [List.length_dropLast]; omega
      · rw [list_getD_dropLast (by omega)]
        exact hgi

theorem push_unsat_clauses (w : FlipState) (ref : ℕ) :
    (push_unsat w ref).clauses = w.clauses := rfl

theorem push_unsat_counters_ne {w : FlipState} {ref r : ℕ} (h : r ≠ ref) :
    (push_unsat w ref).counters r = w.counters r := by
  show (if r = ref then _ else w.counters r) = w.counters r
  rw [if_neg h]

theorem pop_unsat_clauses (w : FlipState) (ref p : ℕ) :
    (pop_unsat w ref p).clauses = w.clauses := by
  simp only [pop_unsat]
  split <;> rfl

theorem pop_unsat_counters_count (w : FlipState) (ref p r : ℕ) :
    ((pop_unsat w ref p).counters r).count = (w.counters r).count := by
  simp only [pop_unsat]
  by_cases hne : ref ≠ w.unsat.getLastD 0
  · rw [if_pos hne]
    dsimp only
    by_cases hro : r = w.unsat.getLastD 0
    · rw [if_pos hro, hro]
    · rw [if_neg hro]
  · rw [if_neg hne]

theorem make_step_clauses (w : FlipState) (ref : ℕ) :
    (make_step w ref).clauses = w.clauses := by
  simp only [make_step]
  by_cases hc : (w.counters ref).count = 0
  · rw [if_pos hc, pop_unsat_clauses]
  · rw [if_neg hc]

theorem make_step_count_le (w : FlipState) (ref r : ℕ) :
    (w.counters r).count ≤ ((make_step w ref).counters r).count := by
  simp only [make_step]
  by_cases hc : (w.counters ref).count = 0
  · rw [if_pos hc, pop_unsat_counters_count]
    dsimp only
    by_cases hrr : r = ref
    · subst hrr
      rw [if_pos rfl, hc]
      exact Nat.zero_le _
    · rw [if_neg hrr]
  · rw [if_neg hc]
    dsimp only
    by_cases hrr : r = ref
    · subst hrr
      rw [if_pos rfl]
      exact Nat.le_succ _
    · rw [if_neg hrr]

theorem make_clauses_clauses (wl : List ℕ) : ∀ w : FlipState,
    (make_clauses w wl).clauses = w.clauses := by
  induction wl with
  | nil => intro w; rfl
  | cons a t ih =>
    intro w
    show (make_clauses (make_step w a) t).clauses = w.clauses
    rw [ih (make_step w a), make_step_clauses]

theorem make_clauses_count_le (wl : List ℕ) : ∀ (w : FlipState) (r : ℕ),
    (w.counters r).count ≤ ((make_clauses w wl).counters r).count := by
  induction wl with
  | nil => intro w r; exact le_refl _
  | cons a t ih =>
    intro w r
    exact le_trans (make_step_count_le w a r) (ih (make_step w a) r)

theorem break_step_clauses (w : FlipState) (ref : ℕ) :
    (break_step w ref).clauses = w.clauses := by
  simp only [break_step]
  by_cases hc : (w.counters ref).count = 1
  · rw [if_pos hc, push_unsat_clauses]
  · rw [if_neg hc]

theorem break_step_counters_ne {w : FlipState} {ref r : ℕ} (h : r ≠ ref) :
    (break_step w ref).counters r = w.counters r := by
  simp only [break_step]
  by_cases hc : (w.counters ref).count = 1
  · rw [if_pos hc, push_unsat_counters_ne h]
    dsimp only
    rw [if_neg h]
  · rw [if_neg hc]
    dsimp only
    rw [if_neg h]

theorem make_step_invA {w : FlipState} {ref : ℕ} (hw : InvA w)
    (href : ref < w.clauses) : InvA (make_step w ref) := by
  obtain ⟨h1, h2⟩ := hw
  by_cases hc : (w.counters ref).count = 0
  · have hmem : ref ∈ w.unsat := h2 ref href hc
    obtain ⟨hposlt, hgetpos, -⟩ := mem_pos_of_entriesOK h1 hmem
    have hstate : make_step w ref =
        pop_unsat
          { w with counters := fun r =>
              if r = ref then ⟨1, (w.counters ref).pos⟩ else w.counters r }
          ref (w.counters ref).pos := by
      simp only [make_step]
      rw [if_pos hc]
    rw [hstate]
    apply pop_unsat_invA
    · exact hposlt
    · exact hgetpos
    · intro i hi
      exact (h1 i hi).1
    · intro i hi
      dsimp only at hi ⊢
      by_cases hgr : w.unsat.getD i 0 = ref
      · rw [hgr, if_pos rfl]
        show (w.counters ref).pos = i
        have hbi := h1 i hi
        rw [hgr] at hbi
        exact hbi.2.1
      · rw [if_neg hgr]
        exact (h1 i hi).2.1
    · intro i hi hgr
      dsimp only at hi hgr ⊢
      rw [if_neg hgr]
      exact (h1 i hi).2.2
    · intro r hr hrne hc0
      dsimp only at hr hc0 ⊢
      rw [if_neg hrne] at hc0
      exact h2 r hr hc0
    · show (if ref = ref then (⟨1, (w.counters ref).pos⟩ : Counter)
          else w.counters ref).count ≠ 0
      rw [if_pos rfl]
      exact Nat.one_ne_zero
  · have hstate : make_step w ref =
        { w with counters := fun r =>
            if r = ref then ⟨(w.counters ref).count + 1, (w.counters ref).pos⟩
            else w.counters r } := by
      simp only [make_step]
      rw [if_neg hc]
    rw [hstate]
    constructor
    · intro i hi
      dsimp only at hi ⊢
      have hgne : w.unsat.getD i 0 ≠ ref := by
        intro h
        have hbi := (h1 i hi).2.2
        rw [h] at hbi
        exact hc hbi
      rw [if_neg hgne]
      exact h1 i hi
    · intro r hr hc0
      dsimp only at hr hc0 ⊢
      by_cases hrr : r = ref
      · subst hrr
        rw [if_pos rfl] at hc0
        exact absurd hc0 (Nat.succ_ne_zero _)
      · rw [if_neg hrr] at hc0
        exact h2 r hr hc0

theorem break_step_invA {w : FlipState} {ref : ℕ} (hw : InvA w)
    (href : ref < w.clauses) (hcpos : 1 ≤ (w.counters ref).count) :
    InvA (break_step w ref) := by
  obtain ⟨h1, h2⟩ := hw
  have hnm : ref ∉ w.unsat := by
    intro hmem
    have hz := (mem_pos_of_entriesOK h1 hmem).2.2
    omega
  by_cases hc1 : (w.counters ref).count = 1
  · have hstate : break_step w ref =
        push_unsat
          { w with counters := fun r =>
              if r = ref then ⟨(w.counters ref).count - 1, (w.counters ref).pos⟩
              else w.counters r } ref := by
      simp only [break_step]
      rw [if_pos hc1]
    rw [hstate]
    apply push_unsat_invA
    · exact href
    · exact hnm
    · show (if ref = ref then
          (⟨(w.counters ref).count - 1, (w.counters ref).pos⟩ : Counter)
          else w.counters ref).count = 0
      rw [if_pos rfl]
      show (w.counters ref).count - 1 = 0
      omega
    · intro i hi
      dsimp only at hi ⊢
      have hgne : w.unsat.getD i 0 ≠ ref := by
        intro h
        exact hnm (h ▸ mem_getD_iff.mpr ⟨i, hi, rfl⟩)
      rw [if_neg hgne]
      exact h1 i hi
    · intro r hr hrne hc0
      dsimp only at hr hc0 ⊢
      rw [if_neg hrne] at hc0
      exact h2 r hr hc0
  · have hstate : break_step w ref =
        { w with counters := fun r =>
            if r = ref then ⟨(w.counters ref).count - 1, (w.counters ref).pos⟩
            else w.counters r } := by
      simp only [break_step]
      rw [if_neg hc1]
    rw [hstate]
    constructor
    · intro i hi
      dsimp only at hi ⊢
      have hgne : w.unsat.getD i 0 ≠ ref := by
        intro h
        exact hnm (h ▸ mem_getD_iff.mpr ⟨i, hi, rfl⟩)
      rw [if_neg hgne]
      exact h1 i hi
    · intro r hr hc0
      dsimp only at hr hc0 ⊢
      by_cases hrr : r = ref
      · subst hrr
        rw [if_pos rfl] at hc0
        show r ∈ w.unsat
        exact absurd hc0 (by show ¬ ((w.counters r).count - 1 = 0); omega)
      · rw [if_neg hrr] at hc0
        exact h2 r hr hc0

theorem break_clauses_invA (wl : List ℕ) : ∀ {w : FlipState}, InvA w →
    wl.Nodup → (∀ r ∈ wl, r < w.clauses ∧ 1 ≤ (w.counters r).count) →
    InvA (break_clauses w wl) := by
  induction wl with
  | nil =>
    intro w hw _ _
    exact hw
  | cons a t ih =>
    intro w hw hnd hb
    show InvA (List.foldl break_step (break_step w a) t)
    have ha := hb a (List.mem_cons_self a t)
    apply ih (break_step_invA hw ha.1 ha.2) (List.Nodup.of_cons hnd)
    intro r hr
    have hrna : r ≠ a := by
      intro h
      exact (List.nodup_cons.mp hnd).1 (h ▸ hr)
    refine ⟨?_, ?_⟩
    · rw [break_step_clauses]
      exact (hb r (List.mem_cons_of_mem a hr)).1
    · rw [break_step_counters_ne hrna]
      exact (hb r (List.mem_cons_of_mem a hr)).2

theorem make_clauses_invA (wl : List ℕ) : ∀ {w : FlipState}, InvA w →
    (∀ r ∈ wl, r < w.clauses) → InvA (make_clauses w wl) := by
  induction wl with
  | nil =>
    intro w hw _
    exact hw
  | cons a t ih =>
    intro w hw hb
    show InvA (List.foldl make_step (make_step w a) t)
    apply ih (make_step_invA hw (hb a (List.mem_cons_self a t)))
    intro r hr
    rw [make_step_clauses]
    exact hb r (List.mem_cons_of_mem a hr)

theorem flip_literal_invA {watches : ℕ → List ℕ} {w : FlipState} {flip : ℕ}
    (hw : InvA w)
    (hmk : ∀ r ∈ watches flip, r < w.clauses)
    (hbrk : ∀ r ∈ watches (NOTLIT flip),
      r < w.clauses ∧ 1 ≤ (w.counters r).count)
    (hnd : (watches (NOTLIT flip)).Nodup) :
    InvA (flip_literal watches w flip) := by
  show InvA (break_clauses
    (make_clauses
      { w with values := fun l =>
          if l = flip then -(w.values flip)
          else if l = NOTLIT flip then w.values flip
          else w.values l }
      (watches flip))
    (watches (NOTLIT flip)))
  have hw1 : InvA
      { w with values := fun l =>
          if l = flip then -(w.values flip)
          else if l = NOTLIT flip then w.values flip
          else w.values l } := hw
  have hw2 := make_clauses_invA (watches flip) hw1 hmk
  apply break_clauses_invA _ hw2 hnd
  intro r hr
  refine ⟨?_, ?_⟩
  · rw [make_clauses_clauses]
    exact (hbrk r hr).1
  · exact le_trans (hbrk r hr).2 (make_clauses_count_le (watches flip)
      { w with values := fun l =>
          if l = flip then -(w.values flip)
          else if l = NOTLIT flip then w.values flip
          else w.values l } r)

theorem connect_counter_invA {w : FlipState} (hw : InvA w) (cnt : ℕ) :
    InvA (connect_counter w cnt) := by
  obtain ⟨h1, h2⟩ := hw
  have hnm : w.clauses ∉ w.unsat := by
    intro hmem
    obtain ⟨i, hi, hgi⟩ := mem_getD_iff.mp hmem
    have hlt := (h1 i hi).1
    omega
  by_cases hc : cnt = 0
  · have hstate : connect_counter w cnt =
        push_unsat
          { w with
            clauses := w.clauses + 1,
            counters := fun r =>
              if r = w.clauses then ⟨cnt, 0⟩ else w.counters r }
          w.clauses := by
      simp only [connect_counter]
      rw [if_pos hc]
    rw [hstate]
    apply push_unsat_invA
    · exact Nat.lt_succ_self _
    · exact hnm
    · show (if w.clauses = w.clauses then (⟨cnt, 0⟩ : Counter)
          else w.counters w.clauses).count = 0
      rw [if_pos rfl]
      exact hc
    · intro i hi
      dsimp only at hi ⊢
      have hgne : w.unsat.getD i 0 ≠ w.clauses := by
        have hlt := (h1 i hi).1
        omega
      rw [if_neg hgne]
      have hall := h1 i hi
      exact ⟨by omega, hall.2.1, hall.2.2⟩
    · intro r hr hrne hc0
      dsimp only at hr hc0 ⊢
      rw [if_neg hrne] at hc0
      have hrlt : r < w.clauses := by
        have : r < w.clauses + 1 := hr
        omega
      exact h2 r hrlt hc0
  · have hstate : connect_counter w cnt =
        { w with
          clauses := w.clauses + 1,
          counters := fun r =>
            if r = w.clauses then ⟨cnt, 0⟩ else w.counters r } := by
      simp only [connect_counter]
      rw [if_neg hc]
    rw [hstate]
    constructor
    · intro i hi
      dsimp only at hi ⊢
      have hgne : w.unsat.getD i 0 ≠ w.clauses := by
        have hlt := (h1 i hi).1
        omega
      rw [if_neg hgne]
      have hall := h1 i hi
      exact ⟨by omega, hall.2.1, hall.2.2⟩
    · intro r hr hc0
      dsimp only at hr hc0 ⊢
      by_cases hrr : r = w.clauses
      · subst hrr
        rw [if_pos rfl] at hc0
        exact absurd hc0 hc
      · rw [if_neg hrr] at hc0
        have hrlt : r < w.clauses := by
          have : r < w.clauses + 1 := hr
          omega
        exact h2 r hrlt hc0

theorem connect_binary_counters_invA (values : ℕ → Int)
    (binaries : List (ℕ × ℕ)) : ∀ {w : FlipState}, InvA w →
    InvA (connect_binary_counters values w binaries) := by
  induction binaries with
  | nil =>
    intro w hw
    exact hw
  | cons b t ih =>
    intro w hw
    show InvA (List.foldl (connect_binary_step values)
      (connect_binary_step values w b) t)
    apply ih
    unfold connect_binary_step
    by_cases hz : values b.1 = 0 ∨ values b.2 = 0
    · rw [if_pos hz]
      exact hw
    · rw [if_neg hz]
      exact connect_counter_invA hw _

theorem connect_large_counters_invA (saved values : ℕ → Int)
    (clausesList : List (List ℕ)) : ∀ {w : FlipState}, InvA w →
    InvA (connect_large_counters saved values w clausesList) := by
  induction clausesList with
  | nil =>
    intro w hw
    exact hw
  | cons c t ih =>
    intro w hw
    show InvA (List.foldl (connect_large_step saved values)
      (connect_large_step saved values w c) t)
    apply ih
    unfold connect_large_step
    by_cases hz : ∃ lit ∈ c, saved lit > 0
    · rw [if_pos hz]
      exact hw
    · rw [if_neg hz]
      exact connect_counter_invA hw _

theorem init_walker_counters_invA (saved values : ℕ → Int)
    (binaries : List (ℕ × ℕ)) (clausesList : List (List ℕ)) :
    InvA (init_walker_counters saved values binaries clausesList) := by
  unfold init_walker_counters
  apply connect_large_counters_invA
  apply connect_binary_counters_invA
  constructor
  · intro i hi
    exact absurd hi (by simp)
  · intro r hr
    exact absurd (show r < 0 from hr) (by omega)

/-- C1: Invariant A. After init_walker's counter connection the invariant
holds (a counter ref is on the unsat stack iff its count is 0, at exactly
the index its pos field stores); flip_literal preserves it whenever the
watch lists hold connected refs, the negated literal's watch list has no
duplicates and all its counters have positive count (clauses containing the
negated literal have at least their one true literal, Invariant B); and
pop_unsat, when the popped top is a different ref, stores the vacated
position p into the swapped-in counter's pos field. -/
theorem C1_unsat_invariantA :
    (∀ (saved values : ℕ → Int) (binaries : List (ℕ × ℕ))
        (clausesList : List (List ℕ)),
        InvA (init_walker_counters saved values binaries clausesList)) ∧
    (∀ (watches : ℕ → List ℕ) (w : FlipState) (flip : ℕ),
        InvA w →
        (∀ r ∈ watches flip, r < w.clauses) →
        (∀ r ∈ watches (NOTLIT flip),
          r < w.clauses ∧ 1 ≤ (w.counters r).count) →
        (watches (NOTLIT flip)).Nodup →
        InvA (flip_literal watches w flip)) ∧
    (∀ (w : FlipState) (ref p : ℕ), ref ≠ w.unsat.getLastD 0 →
        ((pop_unsat w ref p).counters (w.unsat.getLastD 0)).pos = p) := by
  refine ⟨init_walker_counters_invA, ?_, ?_⟩
  · intro watches w flip hw hmk hbrk hnd
    exact flip_literal_invA hw hmk hbrk hnd
  · intro w ref p hne
    simp only [pop_unsat]
    rw [if_pos hne]
    dsimp only
    rw [if_pos rfl]

theorem C1_witness :
    InvA (init_walker_counters (fun _ => -1) (fun _ => -1) [(0, 2)] [[0, 2]]) ∧
    InvA (flip_literal (fun l => if l = 0 then [0] else [])
      (FlipState.mk 1 (fun _ => ⟨0, 0⟩) [0]
        (fun l => if l = 0 then -1 else if l = 1 then 1 else -1)) 0) ∧
    ((pop_unsat (FlipState.mk 2 (fun _ => ⟨0, 0⟩) [5, 7] (fun _ => 0))
        5 0).counters ((FlipState.mk 2 (fun _ => ⟨0, 0⟩) [5, 7]
        (fun _ => 0)).unsat.getLastD 0)).pos = 0 := by
  refine ⟨C1_unsat_invariantA.1 _ _ _ _, ?_, ?_⟩
  · apply C1_unsat_invariantA.2.1
    · unfold InvA UnsatEntriesOK ZeroCountsIn
      decide
    · decide
    · decide
    · decide
  · apply C1_unsat_invariantA.2.2
    decide

theorem C8_witness :
    (push_flipped trailAtLimit 7
        = { trailAtLimit with trail := [], best := INVALID_BEST }) ∧
    (push_flipped trailInvalid 7 = trailInvalid) ∧
    ((update_best trailImproved).minimum = trailImproved.current ∧
     (update_best trailImproved).best = 0 ∧
     (update_best trailImproved).saved 0 = trailImproved.values (LIT 0)) := by
  refine ⟨C8_trail_invalidation.1 trailAtLimit 7 rfl rfl,
    C8_trail_invalidation.2.1 trailInvalid 7 rfl rfl, ?_, ?_, ?_⟩
  · exact (C8_trail_invalidation.2.2 trailImproved rfl (by decide)).1
  · exact (C8_trail_invalidation.2.2 trailImproved rfl (by decide)).2.1
  · exact (C8_trail_invalidation.2.2 trailImproved rfl (by decide)).2.2 0
      (by decide) (by decide)

end Walk
